import Mathlib

/-!
# Verification of `event-rs` (`src/lib.rs`)

`event_rs::Event` is a thin wrapper around `slab::Slab`: handlers are stored
in a slab, `add` is `Slab::insert`, `remove` is `Slab::try_remove(..).is_some()`,
`clear` is `Slab::clear`, and `invoke` iterates the slab in slot-index order,
calling each stored handler with a shared reference to the argument.

We embed the relevant fragment of the `slab` crate (the dependency whose
behaviour `Event` exposes) shallowly:

* `Slab` is `{ entries : Vec<Entry<T>>, len : usize, next : usize }` with
  `Entry = Vacant(usize) | Occupied(T)`; we model `Vec` as `List`, `usize`
  as `Nat`.
* `insert` can hit an `unreachable!` panic when the free-list head is
  corrupt; we model this as `Option`, `none` standing for the panic.  On
  well-formed states (`Slab.WF`) the panic never happens.
* Handlers are opaque values of a type `τ`; since calling a handler is an
  observable side effect, `invoke` is modelled by its call trace: the list
  of `(handler, argument)` calls it performs, in order.  A variant
  `Event.invokeRun` models handlers that can abort (panic) mid-iteration.
-/

/-- `slab::Entry<T>`: a slot is either vacant (holding the next free index)
or occupied by a value. -/
inductive Entry (τ : Type) : Type where
  | vacant (nxt : Nat)
  | occupied (val : τ)
deriving DecidableEq, Repr

/-- `slab::Slab<T>`: `entries` is the slot store, `len` the number of
occupied slots, `next` the head of the free list (equal to
`entries.length` when the free list is empty). -/
structure Slab (τ : Type) : Type where
  entries : List (Entry τ)
  len : Nat
  next : Nat
deriving DecidableEq, Repr

namespace Slab

variable {τ : Type}

/-- `Slab::new()`. -/
def new : Slab τ := ⟨[], 0, 0⟩

/-- `Slab::insert` / `insert_at`.  The key is `self.next`.  If the key is the
current length the value is pushed and `next` becomes `key + 1`; otherwise
the entry at `key` must be vacant, the stored free pointer becomes the new
`next`, and the slot is overwritten with the value.  The `none` result
models the `unreachable!` panic taken when the entry at `key` is not
vacant. -/
def insert (s : Slab τ) (val : τ) : Option (Nat × Slab τ) :=
  if s.next = s.entries.length then
    some (s.next, ⟨s.entries ++ [Entry.occupied val], s.len + 1, s.next + 1⟩)
  else
    match s.entries[s.next]? with
    | some (Entry.vacant nxt) =>
        some (s.next, ⟨s.entries.set s.next (Entry.occupied val), s.len + 1, nxt⟩)
    | _ => none

/-- `Slab::try_remove`.  If the entry at `key` is occupied it is replaced by
`Vacant(self.next)`, `next` becomes `key` and the value is returned;
otherwise (vacant entry, which the code restores, or out of range) the slab
is unchanged and `None` is returned. -/
def tryRemove (s : Slab τ) (key : Nat) : Option (τ × Slab τ) :=
  match s.entries[key]? with
  | some (Entry.occupied val) =>
      some (val, ⟨s.entries.set key (Entry.vacant s.next), s.len - 1, key⟩)
  | _ => none

/-- `Slab::clear`: drops all entries and resets the free list. -/
def clear (_s : Slab τ) : Slab τ := ⟨[], 0, 0⟩

/-- Helper for `Slab::iter`: walk the entries, keeping the occupied ones
paired with their slot index (`i` is the index of the head of `l`). -/
def iterFrom : Nat → List (Entry τ) → List (Nat × τ)
  | _, [] => []
  | i, Entry.occupied v :: rest => (i, v) :: iterFrom (i + 1) rest
  | i, Entry.vacant _ :: rest => iterFrom (i + 1) rest

/-- `Slab::iter`: the occupied `(index, value)` pairs in ascending index
order (`entries.iter().enumerate().filter_map(..)`). -/
def iter (s : Slab τ) : List (Nat × τ) := iterFrom 0 s.entries

/-- The slot `h` currently holds a value (`slab.contains(h)`). -/
def isOccupied (s : Slab τ) (h : Nat) : Bool :=
  match s.entries[h]? with
  | some (Entry.occupied _) => true
  | _ => false

/-- The slot `i` exists and is vacant. -/
abbrev vacantAt (entries : List (Entry τ)) (i : Nat) : Prop :=
  ∃ m, entries[i]? = some (Entry.vacant m)

/-- The free list of a slab: starting from pointer `p`, following the
pointers stored in vacant entries visits exactly the indices in `fl`,
terminating at `entries.length`. -/
inductive FreeChain : List (Entry τ) → Nat → List Nat → Prop where
  | nil (entries : List (Entry τ)) : FreeChain entries entries.length []
  | cons {entries : List (Entry τ)} {p m : Nat} {fl : List Nat}
      (hp : entries[p]? = some (Entry.vacant m))
      (htl : FreeChain entries m fl) : FreeChain entries p (p :: fl)

/-- Well-formedness of a slab, as maintained by the `slab` crate: the free
list starting at `next` is a duplicate-free chain whose members are exactly
the vacant slots. -/
def WF (s : Slab τ) : Prop :=
  ∃ fl : List Nat, FreeChain s.entries s.next fl ∧ fl.Nodup ∧
    ∀ i, vacantAt s.entries i ↔ i ∈ fl

end Slab

/-- `event_rs::Event`: a slab of handlers.  A handler is an opaque value of
type `τ` (in Rust, `Box<dyn Fn(&TEventArgs)>`). -/
structure Event (τ : Type) : Type where
  handlers : Slab τ
deriving DecidableEq, Repr

namespace Event

variable {τ α : Type}

/-- `Event::new()`. -/
def new : Event τ := ⟨Slab.new⟩

/-- `Event::add`: `self.handlers.insert(Box::new(handler))`, returning the
slot's handle.  `none` models the (unreachable on well-formed states)
panic inside `Slab::insert`. -/
def add (e : Event τ) (handler : τ) : Option (Nat × Event τ) :=
  (e.handlers.insert handler).map (fun p => (p.1, ⟨p.2⟩))

/-- `Event::remove`: `self.handlers.try_remove(handle).is_some()`, together
with the updated registry. -/
def remove (e : Event τ) (handle : Nat) : Bool × Event τ :=
  match e.handlers.tryRemove handle with
  | some (_, s) => (true, ⟨s⟩)
  | none => (false, e)

/-- `Event::clear`: `self.handlers.clear()`. -/
def clear (e : Event τ) : Event τ := ⟨e.handlers.clear⟩

/-- `Event::invoke`, modelled by its call trace: the handlers of the
occupied slots in ascending slot order, each paired with the argument it is
called with.  `invoke` takes `&self`, so it cannot change the registry;
the trace is a pure function of the state. -/
def invoke (e : Event τ) (arg : α) : List (τ × α) :=
  e.handlers.iter.map (fun p => (p.2, arg))

/-- One mutating API call. -/
inductive Op (τ : Type) : Type where
  | add (f : τ)
  | remove (h : Nat)
  | clear

/-- Apply one mutating call to a registry (`none` models a panic inside
`add`). -/
def step (e : Event τ) : Op τ → Option (Event τ)
  | Op.add f => (e.add f).map Prod.snd
  | Op.remove h => some (e.remove h).2
  | Op.clear => some e.clear

/-- Apply a sequence of mutating calls. -/
def exec (e : Event τ) : List (Op τ) → Option (Event τ)
  | [] => some e
  | op :: ops =>
    match e.step op with
    | some e' => e'.exec ops
    | none => none

/-- `add` each handler of the list in turn, collecting the returned
handles. -/
def addSeq (e : Event τ) : List τ → Option (List Nat × Event τ)
  | [] => some ([], e)
  | f :: fs =>
    match e.add f with
    | some (h, e') => (e'.addSeq fs).map (fun p => (h :: p.1, p.2))
    | none => none

/-- Like `exec`, additionally returning the handles produced by the `add`
calls of the sequence, in order. -/
def execAdds (e : Event τ) : List (Op τ) → Option (List Nat × Event τ)
  | [] => some ([], e)
  | Op.add f :: ops =>
    match e.add f with
    | some (k, e') => (e'.execAdds ops).map (fun p => (k :: p.1, p.2))
    | none => none
  | Op.remove h :: ops => (e.remove h).2.execAdds ops
  | Op.clear :: ops => e.clear.execAdds ops

/-- The op does not deregister handle `h`: it is neither `remove h` nor
`clear`. -/
def Op.keeps (h : Nat) : Op τ → Prop
  | Op.add _ => True
  | Op.remove h' => h' ≠ h
  | Op.clear => False

/-- The op is an `add`. -/
def Op.isAdd : Op τ → Bool
  | Op.add _ => true
  | Op.remove _ => false
  | Op.clear => false

/-- Run a list of handlers sequentially on `arg`, where `run f arg` is
`none` when the call returns normally and `some err` when it raises the
failure `err`.  Returns the handlers actually called, in order, and the
propagated failure if any; a failure aborts the iteration at once. -/
def runHandlers (run : τ → α → Option ε) (arg : α) : List τ → List τ × Option ε
  | [] => ([], none)
  | f :: rest =>
    match run f arg with
    | some err => ([f], some err)
    | none =>
      let r := runHandlers run arg rest
      (f :: r.1, r.2)

/-- `Event::invoke` with fallible handlers: the loop body `handler(arg)`
may raise; the first failure propagates and stops the iteration. -/
def invokeRun (e : Event τ) (run : τ → α → Option ε) (arg : α) :
    List τ × Option ε :=
  runHandlers run arg (e.handlers.iter.map Prod.snd)

end Event

/-! ## Iteration lemmas -/

namespace Slab

variable {τ α : Type}

theorem mem_iterFrom (l : List (Entry τ)) (i j : Nat) (f : τ) :
    (j, f) ∈ iterFrom i l ↔ ∃ k, j = i + k ∧ l[k]? = some (Entry.occupied f) := by
  induction l generalizing i with
  | nil =>
    simp [iterFrom]
  | cons e rest ih =>
    cases e with
    | occupied v =>
      simp only [iterFrom, List.mem_cons, ih, Prod.mk.injEq]
      constructor
      · rintro (⟨rfl, rfl⟩ | ⟨k, rfl, hk⟩)
        · exact ⟨0, by simp⟩
        · exact ⟨k + 1, by omega, by simpa using hk⟩
      · rintro ⟨k, rfl, hk⟩
        cases k with
        | zero =>
          left
          rw [List.getElem?_cons_zero] at hk
          exact ⟨by omega, by injection hk with h; injection h with h; exact h.symm⟩
        | succ k =>
          right
          exact ⟨k, by omega, by simpa using hk⟩
    | vacant m =>
      simp only [iterFrom, ih]
      constructor
      · rintro ⟨k, rfl, hk⟩
        exact ⟨k + 1, by omega, by simpa using hk⟩
      · rintro ⟨k, rfl, hk⟩
        cases k with
        | zero => rw [List.getElem?_cons_zero] at hk; exact absurd hk (by simp)
        | succ k => exact ⟨k, by omega, by simpa using hk⟩

theorem le_fst_of_mem_iterFrom (l : List (Entry τ)) (i : Nat) :
    ∀ p ∈ iterFrom i l, i ≤ p.1 := by
  induction l generalizing i with
  | nil => simp [iterFrom]
  | cons e rest ih =>
    cases e with
    | occupied v =>
      intro p hp
      rcases List.mem_cons.mp hp with rfl | hp
      · exact Nat.le_refl _
      · exact Nat.le_of_succ_le (ih (i + 1) p hp)
    | vacant m =>
      intro p hp
      exact Nat.le_of_succ_le (ih (i + 1) p hp)

theorem pairwise_iterFrom (l : List (Entry τ)) (i : Nat) :
    (iterFrom i l).Pairwise (fun p q => p.1 < q.1) := by
  induction l generalizing i with
  | nil => simp [iterFrom]
  | cons e rest ih =>
    cases e with
    | occupied v =>
      refine List.pairwise_cons.mpr ⟨?_, ih (i + 1)⟩
      intro q hq
      exact Nat.lt_of_succ_le (le_fst_of_mem_iterFrom rest (i + 1) q hq)
    | vacant m =>
      exact ih (i + 1)

theorem mem_iter (s : Slab τ) (j : Nat) (f : τ) :
    (j, f) ∈ s.iter ↔ s.entries[j]? = some (Entry.occupied f) := by
  simp [iter, mem_iterFrom]

theorem pairwise_iter (s : Slab τ) :
    s.iter.Pairwise (fun p q => p.1 < q.1) :=
  pairwise_iterFrom s.entries 0

/-! ## Free-list invariant lemmas -/

theorem lt_length_of_getElem? {l : List (Entry τ)} {k : Nat} {a : Entry τ}
    (h : l[k]? = some a) : k < l.length := by
  rcases List.getElem?_eq_some.mp h with ⟨hk, _⟩
  exact hk

theorem getElem?_set_self {l : List (Entry τ)} {k : Nat} {a x : Entry τ}
    (h : l[k]? = some a) : (l.set k x)[k]? = some x := by
  rw [List.getElem?_set_self', h]
  rfl

theorem FreeChain.mem_vacant {entries : List (Entry τ)} {p : Nat} {fl : List Nat}
    (hc : FreeChain entries p fl) : ∀ q ∈ fl, vacantAt entries q := by
  induction hc with
  | nil => simp
  | cons hp _ ih =>
    intro q hq
    rcases List.mem_cons.mp hq with rfl | hq
    · exact ⟨_, hp⟩
    · exact ih q hq

theorem FreeChain.head_cases {entries : List (Entry τ)} {p : Nat} {fl : List Nat}
    (hc : FreeChain entries p fl) :
    p = entries.length ∨ ∃ m, entries[p]? = some (Entry.vacant m) := by
  cases hc with
  | nil => exact Or.inl rfl
  | cons hp _ => exact Or.inr ⟨_, hp⟩

theorem FreeChain.set_of_not_mem {entries : List (Entry τ)} {p : Nat} {fl : List Nat}
    (hc : FreeChain entries p fl) (k : Nat) (x : Entry τ) (hk : k ∉ fl) :
    FreeChain (entries.set k x) p fl := by
  revert hk
  induction hc with
  | nil =>
    intro _
    have h : (entries.set k x).length = entries.length := List.length_set entries k x
    rw [← h]
    exact FreeChain.nil (entries.set k x)
  | cons hp htl =>
    intro hk
    rename_i ih
    rw [List.mem_cons, not_or] at hk
    exact FreeChain.cons (by rw [List.getElem?_set_ne hk.1]; exact hp) (ih hk.2)

theorem FreeChain.eq_nil {entries : List (Entry τ)} {p : Nat} {fl : List Nat}
    (hc : FreeChain entries p fl) (hp : entries.length ≤ p) : fl = [] := by
  cases hc with
  | nil => rfl
  | cons hq _ =>
    have := lt_length_of_getElem? hq
    omega

theorem FreeChain.cons_inv {entries : List (Entry τ)} {p m : Nat} {fl : List Nat}
    (hc : FreeChain entries p fl) (hp : entries[p]? = some (Entry.vacant m)) :
    ∃ fl', fl = p :: fl' ∧ FreeChain entries m fl' := by
  cases hc with
  | nil =>
    rw [List.getElem?_len_le (Nat.le_refl _)] at hp
    exact absurd hp (by simp)
  | cons hp' htl =>
    rename_i m' fl'
    have hm : m' = m := by
      rw [hp'] at hp
      exact Entry.vacant.inj (Option.some.inj hp)
    exact ⟨fl', rfl, hm ▸ htl⟩

theorem wf_new : WF (new : Slab τ) := by
  refine ⟨[], FreeChain.nil [], List.nodup_nil, fun i => ?_⟩
  simp [new]

theorem wf_occupiedOfList (l : List τ) (n : Nat) :
    WF (⟨l.map Entry.occupied, n, l.length⟩ : Slab τ) := by
  refine ⟨[], ?_, List.nodup_nil, fun i => ?_⟩
  · have h : (l.map Entry.occupied).length = l.length := List.length_map l _
    exact h ▸ FreeChain.nil (l.map Entry.occupied)
  · simp only [List.not_mem_nil, iff_false, not_exists, List.getElem?_map]
    intro m hm
    rcases l[i]? with _ | v <;> simp at hm

theorem insert_isSome_of_wf {s : Slab τ} (v : τ) (h : WF s) :
    (s.insert v).isSome := by
  obtain ⟨fl, hc, -, -⟩ := h
  rcases hc.head_cases with heq | ⟨m, hm⟩
  · simp [insert, heq]
  · have hlt := lt_length_of_getElem? hm
    have hne : s.next ≠ s.entries.length := by omega
    simp [insert, if_neg hne, hm]

theorem insert_inv {s : Slab τ} {v : τ} {k : Nat} {s' : Slab τ}
    (h : s.insert v = some (k, s')) :
    k = s.next ∧
      ((s.next = s.entries.length ∧
          s' = ⟨s.entries ++ [Entry.occupied v], s.len + 1, s.next + 1⟩) ∨
        (∃ m, s.entries[s.next]? = some (Entry.vacant m) ∧
          s' = ⟨s.entries.set s.next (Entry.occupied v), s.len + 1, m⟩)) := by
  by_cases heq : s.next = s.entries.length
  · simp only [insert, if_pos heq, Option.some.injEq, Prod.mk.injEq] at h
    exact ⟨h.1.symm, Or.inl ⟨heq, h.2.symm⟩⟩
  · simp only [insert, if_neg heq] at h
    cases hm : s.entries[s.next]? with
    | none =>
      rw [hm] at h
      exact absurd h (by simp)
    | some e =>
      rw [hm] at h
      cases e with
      | vacant m =>
        simp only [Option.some.injEq, Prod.mk.injEq] at h
        exact ⟨h.1.symm, Or.inr ⟨m, rfl, h.2.symm⟩⟩
      | occupied w => exact absurd h (by simp)

theorem tryRemove_inv {s : Slab τ} {k : Nat} {v : τ} {s' : Slab τ}
    (h : s.tryRemove k = some (v, s')) :
    s.entries[k]? = some (Entry.occupied v) ∧
      s' = ⟨s.entries.set k (Entry.vacant s.next), s.len - 1, k⟩ := by
  simp only [tryRemove] at h
  cases hm : s.entries[k]? with
  | none =>
    rw [hm] at h
    exact absurd h (by simp)
  | some e =>
    rw [hm] at h
    cases e with
    | vacant m => exact absurd h (by simp)
    | occupied w =>
      simp only [Option.some.injEq, Prod.mk.injEq] at h
      refine ⟨?_, h.2.symm⟩
      rw [h.1]

theorem wf_insert {s : Slab τ} {v : τ} {k : Nat} {s' : Slab τ}
    (hwf : WF s) (h : s.insert v = some (k, s')) : WF s' := by
  obtain ⟨fl, hc, hnd, hiff⟩ := hwf
  rcases (insert_inv h).2 with ⟨heq, rfl⟩ | ⟨m, hm, rfl⟩
  · have hfl : fl = [] := hc.eq_nil (Nat.le_of_eq heq.symm)
    subst hfl
    refine ⟨[], ?_, List.nodup_nil, fun i => ?_⟩
    · have hlen : (s.entries ++ [Entry.occupied v]).length = s.next + 1 := by
        simp [heq]
      exact hlen ▸ FreeChain.nil (s.entries ++ [Entry.occupied v])
    · simp only [List.not_mem_nil, iff_false, not_exists]
      intro mm hmm
      by_cases hi : i < s.entries.length
      · rw [List.getElem?_append_left hi] at hmm
        exact (List.not_mem_nil i) ((hiff i).mp ⟨mm, hmm⟩)
      · by_cases hi' : i = s.entries.length
        · subst hi'
          rw [List.getElem?_concat_length] at hmm
          exact Entry.noConfusion (Option.some.inj hmm)
        · have hlen : (s.entries ++ [Entry.occupied v]).length ≤ i := by
            simp only [List.length_append, List.length_singleton]
            omega
          rw [List.getElem?_len_le hlen] at hmm
          exact Option.noConfusion hmm
  · obtain ⟨fl', rfl, htl⟩ := hc.cons_inv hm
    have hnext : s.next ∉ fl' := (List.nodup_cons.mp hnd).1
    refine ⟨fl', htl.set_of_not_mem s.next (Entry.occupied v) hnext,
      (List.nodup_cons.mp hnd).2, fun i => ?_⟩
    by_cases hi : i = s.next
    · subst hi
      constructor
      · rintro ⟨mm, hmm⟩
        rw [getElem?_set_self hm] at hmm
        exact absurd hmm (by simp)
      · intro hmem'
        exact absurd hmem' hnext
    · have hset : (s.entries.set s.next (Entry.occupied v))[i]? = s.entries[i]? :=
        List.getElem?_set_ne (Ne.symm hi)
      constructor
      · rintro ⟨mm, hmm⟩
        rw [hset] at hmm
        rcases List.mem_cons.mp ((hiff i).mp ⟨mm, hmm⟩) with h' | h'
        · exact absurd h' hi
        · exact h'
      · intro hmem'
        rcases (hiff i).mpr (List.mem_cons_of_mem _ hmem') with ⟨mm, hmm⟩
        exact ⟨mm, hset.symm ▸ hmm⟩

theorem wf_tryRemove {s : Slab τ} {k : Nat} {v : τ} {s' : Slab τ}
    (hwf : WF s) (h : s.tryRemove k = some (v, s')) : WF s' := by
  obtain ⟨fl, hc, hnd, hiff⟩ := hwf
  obtain ⟨hocc, rfl⟩ := tryRemove_inv h
  have hk : k ∉ fl := by
    intro hmem
    rcases (hiff k).mpr hmem with ⟨mm, hmm⟩
    rw [hocc] at hmm
    exact Entry.noConfusion (Option.some.inj hmm)
  refine ⟨k :: fl, ?_, List.nodup_cons.mpr ⟨hk, hnd⟩, fun i => ?_⟩
  · exact FreeChain.cons (getElem?_set_self hocc) (hc.set_of_not_mem k _ hk)
  · by_cases hi : i = k
    · subst hi
      refine ⟨fun _ => List.mem_cons_self _ _, fun _ => ⟨s.next, ?_⟩⟩
      exact getElem?_set_self hocc
    · have hset : (s.entries.set k (Entry.vacant s.next))[i]? = s.entries[i]? :=
        List.getElem?_set_ne (Ne.symm hi)
      constructor
      · rintro ⟨mm, hmm⟩
        rw [hset] at hmm
        exact List.mem_cons_of_mem _ ((hiff i).mp ⟨mm, hmm⟩)
      · intro hmem'
        rcases List.mem_cons.mp hmem' with h' | h'
        · exact absurd h' hi
        · rcases (hiff i).mpr h' with ⟨mm, hmm⟩
          exact ⟨mm, hset.symm ▸ hmm⟩

theorem wf_clear (s : Slab τ) : WF (s.clear) := by
  refine ⟨[], FreeChain.nil [], List.nodup_nil, fun i => ?_⟩
  simp [clear]

end Slab

/-! ## Registry-level lemmas -/

namespace Event

variable {τ α : Type}

theorem add_inv {e : Event τ} {f : τ} {h : Nat} {e' : Event τ}
    (hadd : e.add f = some (h, e')) :
    e.handlers.insert f = some (h, e'.handlers) := by
  simp only [add, Option.map_eq_some'] at hadd
  obtain ⟨⟨k, s⟩, hins, heq⟩ := hadd
  injection heq with h1 h2
  subst h1
  subst h2
  exact hins

theorem add_of_insert {e : Event τ} {f : τ} {h : Nat} {s : Slab τ}
    (hins : e.handlers.insert f = some (h, s)) :
    e.add f = some (h, ⟨s⟩) := by
  simp only [add, hins, Option.map_some']

theorem remove_of_occupied {e : Event τ} {h : Nat} {f : τ}
    (hocc : e.handlers.entries[h]? = some (Entry.occupied f)) :
    e.remove h = (true, ⟨⟨e.handlers.entries.set h (Entry.vacant e.handlers.next),
      e.handlers.len - 1, h⟩⟩) := by
  simp [remove, Slab.tryRemove, hocc]

theorem remove_of_not_occupied {e : Event τ} {h : Nat}
    (hocc : e.handlers.isOccupied h = false) :
    e.remove h = (false, e) := by
  unfold Slab.isOccupied at hocc
  unfold remove Slab.tryRemove
  cases hm : e.handlers.entries[h]? with
  | none => rfl
  | some entry =>
    cases entry with
    | vacant m => rfl
    | occupied f => rw [hm] at hocc; exact absurd hocc (by simp)

theorem remove_fst_eq_isOccupied (e : Event τ) (h : Nat) :
    (e.remove h).1 = e.handlers.isOccupied h := by
  unfold remove Slab.tryRemove Slab.isOccupied
  cases hm : e.handlers.entries[h]? with
  | none => rfl
  | some entry => cases entry <;> rfl

theorem remove_snd_not_occupied (e : Event τ) (h : Nat) :
    (e.remove h).2.handlers.isOccupied h = false := by
  by_cases hocc : e.handlers.isOccupied h = true
  · unfold Slab.isOccupied at hocc
    cases hm : e.handlers.entries[h]? with
    | none => rw [hm] at hocc; exact absurd hocc (by simp)
    | some entry =>
      cases entry with
      | vacant m => rw [hm] at hocc; exact absurd hocc (by simp)
      | occupied f =>
        rw [remove_of_occupied hm]
        unfold Slab.isOccupied
        simp only
        rw [Slab.getElem?_set_self hm]
  · rw [remove_of_not_occupied (by revert hocc; cases e.handlers.isOccupied h <;> simp)]
    revert hocc
    cases e.handlers.isOccupied h <;> simp

theorem isOccupied_true_iff {s : Slab τ} {h : Nat} :
    s.isOccupied h = true ↔ ∃ f, s.entries[h]? = some (Entry.occupied f) := by
  unfold Slab.isOccupied
  cases hm : s.entries[h]? with
  | none => simp
  | some entry => cases entry <;> simp

theorem isOccupied_false_iff {s : Slab τ} {h : Nat} :
    s.isOccupied h = false ↔ s.entries[h]? = none ∨ Slab.vacantAt s.entries h := by
  unfold Slab.isOccupied
  cases hm : s.entries[h]? with
  | none => simp [hm]
  | some entry =>
    cases entry with
    | vacant m =>
      simp only [hm]
      constructor
      · intro _
        exact Or.inr ⟨m, hm⟩
      · intro _
        trivial
    | occupied f => simp [hm]

end Event

namespace Slab

variable {τ : Type}

theorem insert_stores {s : Slab τ} {v : τ} {k : Nat} {s' : Slab τ}
    (h : s.insert v = some (k, s')) :
    s'.entries[k]? = some (Entry.occupied v) := by
  have hk := (insert_inv h).1
  subst hk
  rcases (insert_inv h).2 with ⟨heq, rfl⟩ | ⟨m, hm, rfl⟩
  · rw [heq]
    exact List.getElem?_concat_length s.entries (Entry.occupied v)
  · exact getElem?_set_self hm

theorem insert_key_free {s : Slab τ} {v : τ} {k : Nat} {s' : Slab τ}
    (h : s.insert v = some (k, s')) :
    s.isOccupied k = false := by
  have hk := (insert_inv h).1
  subst hk
  unfold isOccupied
  rcases (insert_inv h).2 with ⟨heq, -⟩ | ⟨m, hm, -⟩
  · rw [List.getElem?_len_le (Nat.le_of_eq heq.symm)]
  · rw [hm]

theorem insert_preserves {s : Slab τ} {v : τ} {k : Nat} {s' : Slab τ} {h : Nat} {f : τ}
    (hins : s.insert v = some (k, s'))
    (hocc : s.entries[h]? = some (Entry.occupied f)) :
    s'.entries[h]? = some (Entry.occupied f) := by
  rcases (insert_inv hins).2 with ⟨heq, rfl⟩ | ⟨m, hm, rfl⟩
  · rw [List.getElem?_append_left (lt_length_of_getElem? hocc)]
    exact hocc
  · have hne : s.next ≠ h := by
      intro hcontra
      rw [hcontra, hocc] at hm
      exact Entry.noConfusion (Option.some.inj hm)
    rw [List.getElem?_set_ne hne]
    exact hocc

theorem insert_preserves_other {s : Slab τ} {v : τ} {k : Nat} {s' : Slab τ}
    (hins : s.insert v = some (k, s')) (i : Nat) (hne : i ≠ k) :
    s'.entries[i]? = s.entries[i]? := by
  have hk := (insert_inv hins).1
  subst hk
  rcases (insert_inv hins).2 with ⟨heq, rfl⟩ | ⟨m, hm, rfl⟩
  · by_cases hi : i < s.entries.length
    · exact List.getElem?_append_left hi
    · have h1 : s.entries.length ≤ i := by omega
      have h2 : (s.entries ++ [Entry.occupied v]).length ≤ i := by
        simp only [List.length_append, List.length_singleton]
        omega
      rw [List.getElem?_len_le h1, List.getElem?_len_le h2]
  · exact List.getElem?_set_ne (Ne.symm hne)

theorem tryRemove_preserves_other {s : Slab τ} {k : Nat} {v : τ} {s' : Slab τ}
    (h : s.tryRemove k = some (v, s')) (i : Nat) (hne : i ≠ k) :
    s'.entries[i]? = s.entries[i]? := by
  obtain ⟨-, rfl⟩ := tryRemove_inv h
  exact List.getElem?_set_ne (Ne.symm hne)

end Slab

namespace Event

variable {τ α : Type}

theorem remove_preserves_other (e : Event τ) (h' i : Nat) (hne : i ≠ h') :
    (e.remove h').2.handlers.entries[i]? = e.handlers.entries[i]? := by
  unfold remove
  cases hm : e.handlers.tryRemove h' with
  | none => rfl
  | some p =>
    obtain ⟨v, s⟩ := p
    exact Slab.tryRemove_preserves_other hm i hne

theorem wf_remove (e : Event τ) (h' : Nat) (hwf : Slab.WF e.handlers) :
    Slab.WF (e.remove h').2.handlers := by
  unfold remove
  cases hm : e.handlers.tryRemove h' with
  | none => exact hwf
  | some p =>
    obtain ⟨v, s⟩ := p
    exact Slab.wf_tryRemove hwf hm

theorem step_keeps_occupied {e e' : Event τ} {op : Op τ} {h : Nat} {f : τ}
    (hwf : Slab.WF e.handlers)
    (hocc : e.handlers.entries[h]? = some (Entry.occupied f))
    (hk : op.keeps h)
    (hstep : e.step op = some e') :
    e'.handlers.entries[h]? = some (Entry.occupied f) ∧ Slab.WF e'.handlers := by
  cases op with
  | add g =>
    simp only [step, Option.map_eq_some'] at hstep
    obtain ⟨⟨k, e₂⟩, hadd, hsnd⟩ := hstep
    cases hsnd
    have hins := add_inv hadd
    exact ⟨Slab.insert_preserves hins hocc, Slab.wf_insert hwf hins⟩
  | remove h' =>
    simp only [step, Option.some.injEq] at hstep
    subst hstep
    have hne : h ≠ h' := Ne.symm hk
    exact ⟨(remove_preserves_other e h' h hne).symm ▸ hocc, wf_remove e h' hwf⟩
  | clear => exact absurd hk id

theorem exec_keeps_occupied {e e' : Event τ} {ops : List (Op τ)} {h : Nat} {f : τ}
    (hwf : Slab.WF e.handlers)
    (hocc : e.handlers.entries[h]? = some (Entry.occupied f))
    (hkeep : ∀ op ∈ ops, Op.keeps h op)
    (hex : e.exec ops = some e') :
    e'.handlers.entries[h]? = some (Entry.occupied f) ∧ Slab.WF e'.handlers := by
  induction ops generalizing e with
  | nil =>
    obtain rfl : e = e' := Option.some.inj hex
    exact ⟨hocc, hwf⟩
  | cons op ops ih =>
    unfold exec at hex
    cases hstep : e.step op with
    | none => rw [hstep] at hex; exact absurd hex (by simp)
    | some e₂ =>
      rw [hstep] at hex
      obtain ⟨hocc₂, hwf₂⟩ :=
        step_keeps_occupied hwf hocc (hkeep op (List.mem_cons_self op ops)) hstep
      exact ih hwf₂ hocc₂ (fun o ho => hkeep o (List.mem_cons_of_mem op ho)) hex

end Event

namespace Slab

variable {τ : Type}

theorem insert_free_slot {s : Slab τ} {v : τ} {k : Nat} {s' : Slab τ}
    (hwf : WF s) (h : s.insert v = some (k, s')) :
    ((∃ i, vacantAt s.entries i) → vacantAt s.entries k) ∧
      ((¬∃ i, vacantAt s.entries i) → k = s.entries.length) := by
  have hk := (insert_inv h).1
  subst hk
  obtain ⟨fl, hc, hnd, hiff⟩ := hwf
  constructor
  · rintro ⟨i, hi⟩
    rcases hc.head_cases with heq | ⟨m, hm⟩
    · have hnil : fl = [] := hc.eq_nil (Nat.le_of_eq heq.symm)
      subst hnil
      exact absurd ((hiff i).mp hi) (List.not_mem_nil i)
    · exact ⟨m, hm⟩
  · intro hno
    rcases hc.head_cases with heq | ⟨m, hm⟩
    · exact heq
    · exact absurd ⟨s.next, m, hm⟩ hno

end Slab

namespace Event

variable {τ α : Type}

theorem runHandlers_all_ok (run : τ → α → Option ε) (arg : α) (l : List τ)
    (hall : ∀ g ∈ l, run g arg = none) :
    runHandlers run arg l = (l, none) := by
  induction l with
  | nil => rfl
  | cons f rest ih =>
    unfold runHandlers
    rw [hall f (List.mem_cons_self f rest),
      ih (fun g hg => hall g (List.mem_cons_of_mem f hg))]

theorem runHandlers_error (run : τ → α → Option ε) (arg : α)
    (pre : List τ) (f : τ) (post : List τ) (err : ε)
    (hpre : ∀ g ∈ pre, run g arg = none) (hf : run f arg = some err) :
    runHandlers run arg (pre ++ f :: post) = (pre ++ [f], some err) := by
  induction pre with
  | nil =>
    rw [List.nil_append, List.nil_append]
    unfold runHandlers
    rw [hf]
  | cons g pre ih =>
    rw [List.cons_append, List.cons_append]
    unfold runHandlers
    rw [hpre g (List.mem_cons_self g pre),
      ih (fun g' hg' => hpre g' (List.mem_cons_of_mem g hg'))]

theorem exec_no_add_empty {e e'' : Event τ} {ops : List (Op τ)}
    (he : e.handlers.entries = [])
    (hno : ∀ op ∈ ops, op.isAdd = false)
    (hex : e.exec ops = some e'') :
    e''.handlers.entries = [] := by
  induction ops generalizing e with
  | nil =>
    obtain rfl : e = e'' := Option.some.inj hex
    exact he
  | cons op ops ih =>
    unfold exec at hex
    cases op with
    | add f => exact absurd (hno _ (List.mem_cons_self _ _)) (by simp [Op.isAdd])
    | remove h =>
      have hrem : e.remove h = (false, e) := by
        apply remove_of_not_occupied
        unfold Slab.isOccupied
        rw [he]
        rfl
      simp only [step, hrem] at hex
      exact ih he (fun o ho => hno o (List.mem_cons_of_mem _ ho)) hex
    | clear =>
      simp only [step] at hex
      exact ih rfl (fun o ho => hno o (List.mem_cons_of_mem _ ho)) hex

theorem addSeq_cons {e : Event τ} {f : τ} {h : Nat} {e' : Event τ}
    (hadd : e.add f = some (h, e')) (fs : List τ) :
    e.addSeq (f :: fs) = (e'.addSeq fs).map (fun p => (h :: p.1, p.2)) := by
  conv_lhs => unfold addSeq
  rw [hadd]

theorem addSeq_occupied (gs fs : List τ) :
    (⟨⟨gs.map Entry.occupied, gs.length, gs.length⟩⟩ : Event τ).addSeq fs =
      some (List.range' gs.length fs.length,
        ⟨⟨(gs ++ fs).map Entry.occupied, (gs ++ fs).length, (gs ++ fs).length⟩⟩) := by
  induction fs generalizing gs with
  | nil => simp [addSeq, List.range']
  | cons f fs ih =>
    have hadd : (⟨⟨gs.map Entry.occupied, gs.length, gs.length⟩⟩ : Event τ).add f =
        some (gs.length, ⟨⟨(gs ++ [f]).map Entry.occupied,
          (gs ++ [f]).length, (gs ++ [f]).length⟩⟩) := by
      apply add_of_insert
      unfold Slab.insert
      rw [if_pos (by simp)]
      simp
    rw [addSeq_cons hadd fs, ih (gs ++ [f])]
    simp only [Option.map_some']
    have hlen : (gs ++ [f]).length = gs.length + 1 := by simp
    have happ : (gs ++ [f]) ++ fs = gs ++ f :: fs := by simp
    rw [hlen, happ]
    rfl

end Event

namespace Event

variable {τ α : Type}

theorem isOccupied_congr {s s' : Slab τ} {h : Nat}
    (heq : s.entries[h]? = s'.entries[h]?) : s.isOccupied h = s'.isOccupied h := by
  unfold Slab.isOccupied
  rw [heq]

theorem remove_isOccupied_mono {e : Event τ} {h' h : Nat}
    (hocc : (e.remove h').2.handlers.isOccupied h = true) :
    e.handlers.isOccupied h = true := by
  by_cases hcase : e.handlers.isOccupied h' = true
  · obtain ⟨g, hg⟩ := isOccupied_true_iff.mp hcase
    rw [remove_of_occupied hg] at hocc
    by_cases hh : h = h'
    · subst hh
      unfold Slab.isOccupied at hocc
      rw [Slab.getElem?_set_self hg] at hocc
      exact absurd hocc (by simp)
    · unfold Slab.isOccupied at hocc ⊢
      rw [List.getElem?_set_ne (Ne.symm hh)] at hocc
      exact hocc
  · rw [remove_of_not_occupied (by revert hcase; cases e.handlers.isOccupied h' <;> simp)] at hocc
    exact hocc

theorem execAdds_add_cons {e : Event τ} {f : τ} {k : Nat} {e' : Event τ}
    (hadd : e.add f = some (k, e')) (ops : List (Op τ)) :
    e.execAdds (Op.add f :: ops) =
      (e'.execAdds ops).map (fun p => (k :: p.1, p.2)) := by
  conv_lhs => unfold execAdds
  rw [hadd]

theorem execAdds_occupied_source {ops : List (Op τ)} :
    ∀ {e e'' : Event τ} {hs : List Nat} {h : Nat},
      e.execAdds ops = some (hs, e'') →
      e''.handlers.isOccupied h = true →
      h ∈ hs ∨ e.handlers.isOccupied h = true := by
  induction ops with
  | nil =>
    intro e e'' hs h hex hocc
    have heq : (([] : List Nat), e) = (hs, e'') := Option.some.inj hex
    injection heq with h1 h2
    subst h1
    subst h2
    exact Or.inr hocc
  | cons op ops ih =>
    intro e e'' hs h hex hocc
    cases op with
    | add f =>
      cases hadd : e.add f with
      | none =>
        unfold execAdds at hex
        rw [hadd] at hex
        exact absurd hex (by simp)
      | some p =>
        obtain ⟨k, e'⟩ := p
        rw [execAdds_add_cons hadd ops] at hex
        rw [Option.map_eq_some'] at hex
        obtain ⟨⟨hs', e₂⟩, hex', heq⟩ := hex
        injection heq with h1 h2
        subst h1
        subst h2
        rcases ih hex' hocc with hmem | hocc'
        · exact Or.inl (List.mem_cons_of_mem k hmem)
        · by_cases hk : h = k
          · subst hk
            exact Or.inl (List.mem_cons_self h hs')
          · right
            rw [isOccupied_congr (Slab.insert_preserves_other (add_inv hadd) h hk).symm]
            exact hocc'
    | remove h' =>
      have hex' : (e.remove h').2.execAdds ops = some (hs, e'') := hex
      rcases ih hex' hocc with hmem | hocc'
      · exact Or.inl hmem
      · exact Or.inr (remove_isOccupied_mono hocc')
    | clear =>
      have hex' : e.clear.execAdds ops = some (hs, e'') := hex
      rcases ih hex' hocc with hmem | hocc'
      · exact Or.inl hmem
      · exact absurd hocc' (by simp [clear, Slab.clear, Slab.isOccupied])

end Event

/-! ## The claims -/

namespace Event

variable {τ α : Type}

/-- C1: `invoke` iterates exactly the occupied slots in ascending slot-index
order and calls each stored handler exactly once with the shared argument,
sequentially (the trace lists the calls in execution order).  Since `invoke`
takes `&self` it cannot mutate the registry, so the trace is a pure function
of the state: two `invoke` calls with no `add`/`remove`/`clear` in between
execute the same handlers in the same order. -/
theorem invoke_iterates_occupied_slots_in_order (e : Event τ) (arg : α) :
    e.invoke arg = e.handlers.iter.map (fun p => (p.2, arg)) ∧
    (e.handlers.iter.map Prod.fst).Pairwise (· < ·) ∧
    (∀ i f, (i, f) ∈ e.handlers.iter ↔
      e.handlers.entries[i]? = some (Entry.occupied f)) ∧
    (∀ i f, e.handlers.entries[i]? = some (Entry.occupied f) →
      (e.handlers.iter.map Prod.fst).count i = 1) := by
  have hpw : (e.handlers.iter.map Prod.fst).Pairwise (· < ·) :=
    (List.pairwise_map).mpr (Slab.pairwise_iter e.handlers)
  refine ⟨rfl, hpw, fun i f => Slab.mem_iter e.handlers i f, ?_⟩
  intro i f hocc
  have hmem : (i, f) ∈ e.handlers.iter := (Slab.mem_iter _ i f).mpr hocc
  have hmem' : i ∈ e.handlers.iter.map Prod.fst := List.mem_map_of_mem Prod.fst hmem
  have hnd : (e.handlers.iter.map Prod.fst).Nodup :=
    hpw.imp (fun hlt => Nat.ne_of_lt hlt)
  exact List.count_eq_one_of_mem hnd hmem'

/-- Witness for C1: on a registry with occupied slots 0 and 2 and a vacant
slot 1, the trace calls exactly those two handlers in slot order, each
once, with the argument. -/
theorem invoke_iterates_occupied_slots_in_order_check :
    ((⟨⟨[Entry.occupied 5, Entry.vacant 3, Entry.occupied 7], 2, 1⟩⟩ : Event Nat).invoke
      (42 : Nat) = [(5, 42), (7, 42)]) ∧
    (((⟨⟨[Entry.occupied 5, Entry.vacant 3, Entry.occupied 7], 2, 1⟩⟩ :
      Event Nat).handlers.iter.map Prod.fst).count 0 = 1) := by
  have t := invoke_iterates_occupied_slots_in_order
    (⟨⟨[Entry.occupied 5, Entry.vacant 3, Entry.occupied 7], 2, 1⟩⟩ : Event Nat) (42 : Nat)
  constructor
  · rw [t.1]
    decide
  · exact t.2.2.2 0 5 (by decide)

/-- C2: `remove h` returns true (and vacates slot `h`) iff `h` currently
refers to an occupied slot, and returns false when `h` is out of range or
already vacant; after `add` returns handle `k`, a first `remove k` returns
true and a second immediately following `remove k` returns false. -/
theorem remove_occupied_iff_and_idempotent (e : Event τ) (h : Nat) :
    ((∃ f, e.handlers.entries[h]? = some (Entry.occupied f)) →
      (e.remove h).1 = true) ∧
    ((e.handlers.entries[h]? = none ∨ Slab.vacantAt e.handlers.entries h) →
      (e.remove h).1 = false) ∧
    (e.remove h).2.handlers.isOccupied h = false ∧
    (∀ f k e', e.add f = some (k, e') →
      (e'.remove k).1 = true ∧ ((e'.remove k).2.remove k).1 = false) := by
  refine ⟨?_, ?_, remove_snd_not_occupied e h, ?_⟩
  · rintro ⟨f, hocc⟩
    rw [remove_fst_eq_isOccupied]
    exact isOccupied_true_iff.mpr ⟨f, hocc⟩
  · intro hcase
    rw [remove_fst_eq_isOccupied]
    exact isOccupied_false_iff.mpr hcase
  · intro f k e' hadd
    have hocc := Slab.insert_stores (add_inv hadd)
    constructor
    · rw [remove_fst_eq_isOccupied]
      exact isOccupied_true_iff.mpr ⟨f, hocc⟩
    · rw [remove_fst_eq_isOccupied]
      exact remove_snd_not_occupied e' k

/-- Witness for C2: on the one-handler registry produced by `add`, the
first `remove 0` returns true and the second returns false. -/
theorem remove_occupied_iff_and_idempotent_check :
    (((⟨⟨[Entry.occupied 5], 1, 1⟩⟩ : Event Nat).remove 0).1 = true) ∧
    ((((⟨⟨[Entry.occupied 5], 1, 1⟩⟩ : Event Nat).remove 0).2.remove 0).1 = false) :=
  (remove_occupied_iff_and_idempotent (Event.new : Event Nat) 0).2.2.2 5 0
    ⟨⟨[Entry.occupied 5], 1, 1⟩⟩ (by decide)

/-- C3: the handle returned by `add` identifies exactly the handler passed
to that `add`; removing it deregisters that handler and no other: the slot
vanishes from the iteration and every other slot's content (hence its
participation in `invoke`) is unchanged. -/
theorem add_remove_roundtrip (e : Event τ) (f : τ) (k : Nat) (e' : Event τ)
    (hadd : e.add f = some (k, e')) :
    e'.handlers.entries[k]? = some (Entry.occupied f) ∧
    (e'.remove k).1 = true ∧
    (∀ g : τ, (k, g) ∉ (e'.remove k).2.handlers.iter) ∧
    (∀ i g, i ≠ k →
      ((i, g) ∈ (e'.remove k).2.handlers.iter ↔ (i, g) ∈ e'.handlers.iter)) := by
  have hins := add_inv hadd
  have hocc := Slab.insert_stores hins
  refine ⟨hocc, ?_, ?_, ?_⟩
  · rw [remove_fst_eq_isOccupied]
    exact isOccupied_true_iff.mpr ⟨f, hocc⟩
  · intro g hmem
    have hg := (Slab.mem_iter _ k g).mp hmem
    have hnot := remove_snd_not_occupied e' k
    rcases isOccupied_false_iff.mp hnot with hnone | ⟨m, hvac⟩
    · rw [hnone] at hg
      exact Option.noConfusion hg
    · rw [hvac] at hg
      exact Entry.noConfusion (Option.some.inj hg)
  · intro i g hne
    rw [Slab.mem_iter, Slab.mem_iter, remove_preserves_other e' k i hne]

/-- Witness for C3: removing the freshly added handler succeeds and its
slot no longer appears in the iteration. -/
theorem add_remove_roundtrip_check :
    (((⟨⟨[Entry.occupied 5], 1, 1⟩⟩ : Event Nat).remove 0).1 = true) ∧
    ((0, 5) ∉ ((⟨⟨[Entry.occupied 5], 1, 1⟩⟩ : Event Nat).remove 0).2.handlers.iter) := by
  have t := add_remove_roundtrip (Event.new : Event Nat) 5 0
    ⟨⟨[Entry.occupied 5], 1, 1⟩⟩ (by decide)
  exact ⟨t.2.1, t.2.2.1 5⟩

/-- C4: on a well-formed registry `add` never fails, stores the handler in a
free slot (a previously vacated slot when one exists, otherwise the fresh
slot at the end), returns that slot's index (a `Nat`, hence non-negative),
and the handler is executed by every subsequent `invoke` — it stays in the
iteration through every op sequence that neither removes its handle nor
clears the registry. -/
theorem add_never_fails_and_registers (e : Event τ) (f : τ)
    (hwf : Slab.WF e.handlers) :
    ∃ k e', e.add f = some (k, e') ∧
      e.handlers.isOccupied k = false ∧
      ((∃ i, Slab.vacantAt e.handlers.entries i) →
        Slab.vacantAt e.handlers.entries k) ∧
      ((¬ ∃ i, Slab.vacantAt e.handlers.entries i) →
        k = e.handlers.entries.length) ∧
      e'.handlers.entries[k]? = some (Entry.occupied f) ∧
      (k, f) ∈ e'.handlers.iter ∧
      ∀ ops e'', (∀ op ∈ ops, Op.keeps k op) → e'.exec ops = some e'' →
        (k, f) ∈ e''.handlers.iter := by
  have hsome := Slab.insert_isSome_of_wf f hwf
  obtain ⟨⟨k, s'⟩, hins⟩ := Option.isSome_iff_exists.mp hsome
  refine ⟨k, ⟨s'⟩, add_of_insert hins, Slab.insert_key_free hins,
    (Slab.insert_free_slot hwf hins).1, (Slab.insert_free_slot hwf hins).2,
    Slab.insert_stores hins, (Slab.mem_iter _ _ _).mpr (Slab.insert_stores hins), ?_⟩
  intro ops e'' hkeep hex
  have hwf' : Slab.WF (⟨s'⟩ : Event τ).handlers := Slab.wf_insert hwf hins
  exact (Slab.mem_iter _ _ _).mpr
    (exec_keeps_occupied hwf' (Slab.insert_stores hins) hkeep hex).1

/-- Witness for C4: `add` succeeds on the fresh registry. -/
theorem add_never_fails_and_registers_check :
    ((Event.new : Event Nat).add 5).isSome = true := by
  obtain ⟨k, e', hadd, -⟩ :=
    add_never_fails_and_registers (Event.new : Event Nat) 5 Slab.wf_new
  rw [hadd]
  rfl

/-- C5: `clear` vacates all slots: a following `invoke` executes zero
handlers, `remove` with any handle returns false and keeps doing so through
any add-free op sequence; a fresh registry invokes nothing, and clearing an
empty registry is a no-op. -/
theorem clear_empties_registry (e : Event τ) (arg : α) (h : Nat) :
    e.clear.invoke arg = [] ∧
    (e.clear.remove h).1 = false ∧
    (∀ ops hs e'', e.clear.execAdds ops = some (hs, e'') → h ∉ hs →
      (e''.remove h).1 = false) ∧
    (Event.new : Event τ).invoke arg = [] ∧
    (Event.new : Event τ).clear = Event.new := by
  have hempty : ∀ e₀ : Event τ, e₀.handlers.entries = [] → (e₀.remove h).1 = false := by
    intro e₀ he₀
    rw [remove_fst_eq_isOccupied]
    unfold Slab.isOccupied
    rw [he₀]
    rfl
  refine ⟨rfl, hempty _ rfl, ?_, rfl, rfl⟩
  intro ops hs e'' hex hnot
  rw [remove_fst_eq_isOccupied]
  cases hocc : e''.handlers.isOccupied h with
  | false => rfl
  | true =>
    rcases execAdds_occupied_source hex hocc with hmem | hclr
    · exact absurd hmem hnot
    · have hfalse : e.clear.handlers.isOccupied h = false := rfl
      rw [hfalse] at hclr
      exact absurd hclr (by simp)

/-- Witness for C5: clearing a two-handler registry empties the trace, and
a stale pre-clear handle still fails to remove after a later add that did
not reuse its slot index. -/
theorem clear_empties_registry_check :
    ((⟨⟨[Entry.occupied 5, Entry.occupied 6], 2, 2⟩⟩ : Event Nat).clear.invoke (7 : Nat) = []) ∧
    ((⟨⟨[Entry.occupied 9], 1, 1⟩⟩ : Event Nat).remove 1).1 = false := by
  have t := clear_empties_registry
    (⟨⟨[Entry.occupied 5, Entry.occupied 6], 2, 2⟩⟩ : Event Nat) (7 : Nat) 1
  exact ⟨t.1, t.2.2.1 [Op.add 9] [0] ⟨⟨[Entry.occupied 9], 1, 1⟩⟩ (by decide) (by decide)⟩

/-- C6: a failure raised by a handler propagates unmodified out of `invoke`
immediately: the handlers before it in slot order ran, the error comes out
exactly as raised, and the handlers occupying later slots are not called
(the call trace stops at the failing handler, whatever comes after). -/
theorem invoke_propagates_failure (e : Event τ) (run : τ → α → Option ε) (arg : α)
    (pre post : List τ) (f : τ) (err : ε)
    (hsplit : e.handlers.iter.map Prod.snd = pre ++ f :: post)
    (hpre : ∀ g ∈ pre, run g arg = none)
    (hf : run f arg = some err) :
    e.invokeRun run arg = (pre ++ [f], some err) := by
  unfold invokeRun
  rw [hsplit]
  exact runHandlers_error run arg pre f post err hpre hf

/-- Witness for C6: with three handlers of which the middle one fails, only
the first two are called and the error comes out unmodified. -/
theorem invoke_propagates_failure_check :
    (⟨⟨[Entry.occupied 0, Entry.occupied 1, Entry.occupied 2], 3, 3⟩⟩ : Event Nat).invokeRun
      (fun f _ => if f = 1 then some 7 else none) (0 : Nat) = ([0, 1], some 7) :=
  invoke_propagates_failure
    (⟨⟨[Entry.occupied 0, Entry.occupied 1, Entry.occupied 2], 3, 3⟩⟩ : Event Nat)
    (fun f _ => if f = 1 then some 7 else none) (0 : Nat)
    [0] [2] 1 7 (by decide) (by decide) (by decide)

/-- C7: a successful `remove h` pushes `h` onto the free list (slot `h`
becomes vacant holding the old free head, and the free head becomes `h`),
and the very next `add` pops it, returning handle `h` again. -/
theorem remove_pushes_free_list_add_pops (e : Event τ) (h : Nat) (f : τ)
    (hrem : (e.remove h).1 = true) :
    (e.remove h).2.handlers.next = h ∧
    (e.remove h).2.handlers.entries[h]? = some (Entry.vacant e.handlers.next) ∧
    (∃ e', (e.remove h).2.add f = some (h, e')) := by
  rw [remove_fst_eq_isOccupied] at hrem
  obtain ⟨g, hocc⟩ := isOccupied_true_iff.mp hrem
  rw [remove_of_occupied hocc]
  have hlt : h < e.handlers.entries.length := Slab.lt_length_of_getElem? hocc
  have hvac : (e.handlers.entries.set h (Entry.vacant e.handlers.next))[h]? =
      some (Entry.vacant e.handlers.next) := Slab.getElem?_set_self hocc
  refine ⟨rfl, hvac, ?_⟩
  refine ⟨⟨⟨(e.handlers.entries.set h (Entry.vacant e.handlers.next)).set h
    (Entry.occupied f), e.handlers.len - 1 + 1, e.handlers.next⟩⟩, ?_⟩
  apply add_of_insert
  unfold Slab.insert
  have hne : h ≠ (e.handlers.entries.set h (Entry.vacant e.handlers.next)).length := by
    rw [List.length_set]
    omega
  rw [if_neg hne, hvac]

/-- Witness for C7: after removing the only handler, the free head is its
slot and the next `add` returns the same handle. -/
theorem remove_pushes_free_list_add_pops_check :
    (((⟨⟨[Entry.occupied 5], 1, 1⟩⟩ : Event Nat).remove 0).2.handlers.next = 0) ∧
    (∃ e', ((⟨⟨[Entry.occupied 5], 1, 1⟩⟩ : Event Nat).remove 0).2.add 9 = some (0, e')) := by
  have t := remove_pushes_free_list_add_pops
    (⟨⟨[Entry.occupied 5], 1, 1⟩⟩ : Event Nat) 0 9 (by decide)
  exact ⟨t.1, t.2.2⟩

/-- C8: a handle referring to an occupied slot keeps referring to that slot
with the same handler under every sequence of operations containing neither
`remove` of that handle nor `clear`. -/
theorem handle_refers_until_removed_or_cleared (e e' : Event τ) (h : Nat) (f : τ)
    (ops : List (Op τ))
    (hwf : Slab.WF e.handlers)
    (hocc : e.handlers.entries[h]? = some (Entry.occupied f))
    (hkeep : ∀ op ∈ ops, Op.keeps h op)
    (hex : e.exec ops = some e') :
    e'.handlers.entries[h]? = some (Entry.occupied f) :=
  (exec_keeps_occupied hwf hocc hkeep hex).1

/-- Witness for C8: slot 0 still holds its handler after an unrelated add
and an unrelated remove. -/
theorem handle_refers_until_removed_or_cleared_check :
    (⟨⟨[Entry.occupied 5, Entry.vacant 3, Entry.occupied 7], 2, 1⟩⟩ : Event Nat).handlers.entries[0]? =
      some (Entry.occupied 5) := by
  apply handle_refers_until_removed_or_cleared
    (⟨⟨[Entry.occupied 5, Entry.occupied 6], 2, 2⟩⟩ : Event Nat) _ 0 5
    [Op.add 7, Op.remove 1] (Slab.wf_occupiedOfList [5, 6] 2) (by decide) ?_ (by decide)
  intro op hop
  rcases List.mem_cons.mp hop with rfl | hop
  · exact True.intro
  · rcases List.mem_cons.mp hop with rfl | hop
    · exact (by decide : (1 : Nat) ≠ 0)
    · exact absurd hop (List.not_mem_nil op)

/-- C9: on a fresh registry with no removals or clears, handles are dense
and increasing: adding the handlers `fs` in order returns handles
`0, 1, …, n-1` and leaves exactly slots `0 … n-1` occupied. -/
theorem fresh_adds_dense_handles (fs : List τ) :
    (Event.new : Event τ).addSeq fs =
      some (List.range fs.length,
        ⟨⟨fs.map Entry.occupied, fs.length, fs.length⟩⟩) := by
  have t := addSeq_occupied [] fs
  simp only [List.map_nil, List.length_nil, List.nil_append] at t
  rw [List.range_eq_range']
  exact t

/-- C10: `remove` is atomic on failure: when it returns false the registry
state is completely unchanged, so every live handle still refers to the
same handler and subsequent `invoke` behaviour is identical. -/
theorem remove_false_leaves_registry_unchanged (e : Event τ) (h : Nat) (arg : α)
    (hf : (e.remove h).1 = false) :
    (e.remove h).2 = e ∧ (e.remove h).2.invoke arg = e.invoke arg := by
  rw [remove_fst_eq_isOccupied] at hf
  rw [remove_of_not_occupied hf]
  exact ⟨rfl, rfl⟩

/-- Witness for C10: removing an out-of-range handle leaves the registry as
it was. -/
theorem remove_false_leaves_registry_unchanged_check :
    (((⟨⟨[Entry.occupied 5], 1, 1⟩⟩ : Event Nat).remove 3).2 =
      (⟨⟨[Entry.occupied 5], 1, 1⟩⟩ : Event Nat)) ∧
    (((⟨⟨[Entry.occupied 5], 1, 1⟩⟩ : Event Nat).remove 3).2.invoke (7 : Nat) =
      (⟨⟨[Entry.occupied 5], 1, 1⟩⟩ : Event Nat).invoke (7 : Nat)) :=
  remove_false_leaves_registry_unchanged
    (⟨⟨[Entry.occupied 5], 1, 1⟩⟩ : Event Nat) 3 (7 : Nat) (by decide)

end Event
